import Mathlib

set_option maxRecDepth 100000

/-!
Verification of the HAPI archive reader (hapi-rs).

The definitions below are shallow embeddings of the Rust source:
machine integers become `Nat` with explicit `% 2^w` where wraparound
matters, byte vectors become `List Nat` whose elements are below 256,
and fallible operations return explicit result types.  A Rust panic
(`unwrap` on `None`, out-of-bounds slice copy) is modelled as a
distinct error value, separate from the typed I/O errors the code
returns deliberately.
-/

namespace Hapi

/-! ## Archive-level stream decipher (src/hapi/reader.rs, `<HapiReader as Read>::read`) -/

def U32 : Nat := 2 ^ 32

/-- Per-byte decipher applied by `HapiReader::read` at absolute offset `o`
with cipher key `k`: `char_key = (offset as u32 ^ key) as u8` and the byte
becomes `char_key ^ !byte` (bitwise NOT on `u8` is XOR with 255). -/
def hapiDecipherByte (k o b : Nat) : Nat :=
  ((o % U32 ^^^ k % U32) % 256) ^^^ (b % 256 ^^^ 255)

/-- Deciphering map of `HapiReader::read` over the bytes of one read that
started at absolute position `p`: a byte at offset `p + i` is deciphered
exactly when `p + i ≥ startOffset`. -/
def readerMap (k so : Nat) : Nat → List Nat → List Nat
  | _, [] => []
  | p, b :: bs =>
    (if so ≤ p then hapiDecipherByte k p b else b) :: readerMap k so (p + 1) bs

/-- One `HapiReader::read` call at stream position `pos`: when a key is
present every byte at or past the cipher boundary is deciphered, otherwise
all bytes pass through unchanged. -/
def hapiReaderRead (key : Option Nat) (startOffset pos : Nat) (bytes : List Nat) : List Nat :=
  match key with
  | none => bytes
  | some k => readerMap k startOffset pos bytes

/-- A sequence of reads at arbitrary (possibly non-monotonic) seek
positions: each element pairs a seek target with the bytes served there.
The decipher is offset-derived rather than counter-derived, so each read
depends only on its own absolute position. -/
def readerReadSeq (key : Option Nat) (startOffset : Nat)
    (reads : List (Nat × List Nat)) : List (Nat × List Nat) :=
  reads.map (fun pr => (pr.1, hapiReaderRead key startOffset pr.1 pr.2))

/-! ## Cipher key derivation (src/hapi.rs `HapiHeader` and src/hapi/reader.rs `HapiReader::new`) -/

/-- Bitwise NOT on `u32`. -/
def not32 (x : Nat) : Nat := x ^^^ (U32 - 1)

/-- Key derivation as written in the `#[br(map = ...)]` attribute of
`HapiHeader.key` in src/hapi.rs:
`if key == 0 { None } else { Some(!((key * 4) | (key >> 6))) }`. -/
def hapiHeaderKey (seed : Nat) : Option Nat :=
  if seed = 0 then none else some (not32 ((seed * 4) % U32 ||| seed >>> 6))

/-- Key derivation as written in `HapiReader::new` in src/hapi/reader.rs:
`if header.key == 0 { None } else { Some(!((header.key * 4) | (header.key >> 6))) }`. -/
def readerDeriveKey (seed : Nat) : Option Nat :=
  if seed = 0 then none else some (not32 ((seed * 4) % U32 ||| seed >>> 6))

/-! ## Chunk-local decipher (src/hapi/archive/file_decoder.rs, `<HapiChunkDecoder as Read>::read`) -/

def U64 : Nat := 2 ^ 64

/-- Chunk-local decipher of one payload byte at payload position `i`:
`((byte as usize).wrapping_sub(count) ^ count) as u8` where `count` is the
byte's position within the chunk's own payload. -/
def chunkDecipherByte (i b : Nat) : Nat :=
  (((b % U64 + (U64 - i % U64)) % U64) ^^^ i % U64) % 256

/-- Decipher a block of payload bytes whose first byte sits at payload
position `p` (the enumerate-plus-`cur_pos` indexing of the source). -/
def decipherFrom : Nat → List Nat → List Nat
  | _, [] => []
  | p, b :: bs => chunkDecipherByte p b :: decipherFrom (p + 1) bs

/-- One `HapiChunkDecoder::read` call: serves `min n (len - curPos)` bytes
starting at `curPos` from the chunk payload, deciphering them when
`is_enciphered` is set. -/
def hapiChunkDecoderRead (data : List Nat) (enc : Bool) (curPos n : Nat) : List Nat :=
  let bytes := (data.drop curPos).take n
  if enc then decipherFrom curPos bytes else bytes

/-- Concatenation of successive `HapiChunkDecoder::read` calls with the given
request sizes; `cur_pos` advances by the number of bytes actually served. -/
def chunkReads (data : List Nat) (enc : Bool) : Nat → List Nat → List Nat
  | _, [] => []
  | pos, n :: ns =>
    let out := hapiChunkDecoderRead data enc pos n
    out ++ chunkReads data enc (pos + out.length) ns

/-- Formula the specification states for the chunk-local transform:
`byte[i] = (byte[i] - i) XOR i` computed in 8-bit arithmetic. -/
def chunkDecipherSpec (i b : Nat) : Nat :=
  ((b + (256 - i % 256)) % 256) ^^^ i % 256

/-- Spec-side deciphering of a whole payload, byte position counted from `p`. -/
def decipherSpecFrom : Nat → List Nat → List Nat
  | _, [] => []
  | p, b :: bs => chunkDecipherSpec p b :: decipherSpecFrom (p + 1) bs

/-! ## Compressed chunk header (src/hapi.rs, `HapiCompressedChunk`) -/

/-- Compression kind of a file or chunk (`HapiCompressionType` in src/hapi.rs). -/
inductive HapiCompressionType where
  | cnone
  | lz77
  | zlib
deriving DecidableEq, Repr

/-- Parsed `HapiCompressedChunk` (the `SQSH` chunk header plus payload). -/
structure HapiCompressedChunk where
  compression : HapiCompressionType
  is_enciphered : Bool
  compressed_size : Nat
  decompressed_size : Nat
  checksum : Nat
  data : List Nat
deriving DecidableEq, Repr

/-- Additive chunk checksum from the `assert` on `HapiCompressedChunk.data`:
`data.iter().fold(0, |c: u32, i: &u8| c.wrapping_add(*i as u32))`. -/
def chunkChecksum (data : List Nat) : Nat :=
  data.foldl (fun c b => (c + b) % U32) 0

inductive ChunkParseErr where
  | badMagic
  | badCompressionByte
  | compressionIsNone
  | checksumMismatch (expected actual : Nat)
  | truncated
deriving DecidableEq, Repr

inductive ChunkParseResult where
  | ok (chunk : HapiCompressedChunk) (rest : List Nat)
  | err (e : ChunkParseErr)
deriving DecidableEq, Repr

/-- Little-endian `u32` read used by the binrw-generated parsers. -/
def readU32 : List Nat → Option (Nat × List Nat)
  | a :: b :: c :: d :: rest =>
    some (a % 256 + 256 * (b % 256) + 65536 * (c % 256) + 16777216 * (d % 256), rest)
  | _ => none

/-- Compression-kind byte decode (`#[br(repr(u8))]` on `HapiCompressionType`). -/
def decodeCompressionByte (b : Nat) : Option HapiCompressionType :=
  if b = 0 then some .cnone
  else if b = 1 then some .lz77
  else if b = 2 then some .zlib
  else none

/-- Parse one `HapiCompressedChunk` from a byte stream: magic `"SQSH"`, a
version byte (ignored), the compression byte (must not decode to `None`),
the enciphered flag, three little-endian `u32` fields, then
`compressed_size` payload bytes whose wrapping 32-bit sum must equal the
checksum field. -/
def parseChunk (bytes : List Nat) : ChunkParseResult :=
  match bytes with
  | m0 :: m1 :: m2 :: m3 :: _ver :: compByte :: encByte :: rest =>
    if m0 = 0x53 ∧ m1 = 0x51 ∧ m2 = 0x53 ∧ m3 = 0x48 then
      match decodeCompressionByte compByte with
      | none => .err .badCompressionByte
      | some comp =>
        if comp = .cnone then .err .compressionIsNone
        else
          match readU32 rest with
          | none => .err .truncated
          | some (csize, rest) =>
            match readU32 rest with
            | none => .err .truncated
            | some (dsize, rest) =>
              match readU32 rest with
              | none => .err .truncated
              | some (cksum, rest) =>
                let data := rest.take csize
                if data.length = csize then
                  if chunkChecksum data = cksum then
                    .ok ⟨comp, encByte = 1, csize, dsize, cksum, data⟩ (rest.drop csize)
                  else .err (.checksumMismatch cksum (chunkChecksum data))
                else .err .truncated
    else .err .badMagic
  | _ => .err .badMagic

/-- Little-endian serialization of a `u32` value. -/
def le32 (n : Nat) : List Nat :=
  [n % 256, n / 256 % 256, n / 65536 % 256, n / 16777216 % 256]

def compressionByte : HapiCompressionType → Nat
  | .cnone => 0
  | .lz77 => 1
  | .zlib => 2

/-- Serialized form of a compressed chunk, as laid out in the archive. -/
def serializeChunk (c : HapiCompressedChunk) : List Nat :=
  0x53 :: 0x51 :: 0x53 :: 0x48 :: 1 :: compressionByte c.compression ::
    (if c.is_enciphered then 1 else 0) ::
    (le32 c.compressed_size ++ le32 c.decompressed_size ++ le32 c.checksum ++ c.data)

/-- Well-formedness of a chunk value with respect to its own header fields:
byte-valued payload, sizes that fit in `u32`, a compressed kind, and a size
field that matches the payload. (The checksum field is deliberately not
constrained here.) -/
def ChunkWF (c : HapiCompressedChunk) : Prop :=
  (∀ b ∈ c.data, b < 256) ∧ c.compressed_size = c.data.length ∧
    c.compressed_size < U32 ∧ c.decompressed_size < U32 ∧ c.checksum < U32 ∧
    c.compression ≠ .cnone

/-! ## File contents (src/hapi.rs `HapiFileContents`, src/hapi/archive.rs `write_file`) -/

def HAPI_CHUNK_SIZE : Nat := 65536

/-- Chunk count computed by the `#[br(temp, calc = ...)]` field of
`HapiFileContents::Compressed`:
`(extracted_size + HAPI_CHUNK_SIZE - 1) / HAPI_CHUNK_SIZE` in `u32`
arithmetic (the addition wraps). -/
def chunkCount (extractedSize : Nat) : Nat :=
  ((extractedSize + HAPI_CHUNK_SIZE - 1) % U32) / HAPI_CHUNK_SIZE

inductive FileContents where
  | uncompressed (data : List Nat)
  | compressed (chunks : List HapiCompressedChunk)
deriving DecidableEq, Repr

inductive FileContentsResult where
  | ok (c : FileContents) (rest : List Nat)
  | err (e : ChunkParseErr)
deriving DecidableEq, Repr

/-- Read `n` little-endian `u32` values (the per-chunk size table that
`HapiFileContents::Compressed` reads and discards). -/
def readU32s : Nat → List Nat → Option (List Nat × List Nat)
  | 0, bytes => some ([], bytes)
  | n + 1, bytes =>
    match readU32 bytes with
    | none => none
    | some (v, rest) =>
      match readU32s n rest with
      | none => none
      | some (vs, rest) => some (v :: vs, rest)

inductive ChunksResult where
  | ok (chunks : List HapiCompressedChunk) (rest : List Nat)
  | err (e : ChunkParseErr)
deriving DecidableEq, Repr

/-- Read `n` compressed chunks back-to-back. -/
def parseChunks : Nat → List Nat → ChunksResult
  | 0, bytes => .ok [] bytes
  | n + 1, bytes =>
    match parseChunk bytes with
    | .err e => .err e
    | .ok c rest =>
      match parseChunks n rest with
      | .err e => .err e
      | .ok cs rest => .ok (c :: cs) rest

/-- Parse of `HapiFileContents` at the file's payload offset: verbatim bytes
when the compression kind is `None`; otherwise a computed chunk count `n`,
then `n` little-endian `u32` chunk sizes (unused), then `n` compressed
chunks back-to-back. -/
def parseFileContents (extractedSize : Nat) (comp : HapiCompressionType)
    (bytes : List Nat) : FileContentsResult :=
  match comp with
  | .cnone =>
    let data := bytes.take extractedSize
    if data.length = extractedSize then .ok (.uncompressed data) (bytes.drop extractedSize)
    else .err .truncated
  | _ =>
    let n := chunkCount extractedSize
    match readU32s n bytes with
    | none => .err .truncated
    | some (_sizes, rest) =>
      match parseChunks n rest with
      | .err e => .err e
      | .ok cs rest => .ok (.compressed cs) rest

/-- Modelled from the spec: the behaviour claim C5 describes, with the
chunks read "back-to-back from the payload offset" and the chunk count the
exact ceiling `⌈extracted_size / 65536⌉`.  Differs from
`parseFileContents` in that no chunk-size table is read before the chunks. -/
def parseFileContentsClaimed (extractedSize : Nat) (comp : HapiCompressionType)
    (bytes : List Nat) : FileContentsResult :=
  match comp with
  | .cnone =>
    let data := bytes.take extractedSize
    if data.length = extractedSize then .ok (.uncompressed data) (bytes.drop extractedSize)
    else .err .truncated
  | _ =>
    let n := (extractedSize + HAPI_CHUNK_SIZE - 1) / HAPI_CHUNK_SIZE
    match parseChunks n bytes with
    | .err e => .err e
    | .ok cs rest => .ok (.compressed cs) rest

/-! ## Custom LZ77 decoder (src/hapi/archive/file_decoder.rs, `decode_lz77`) -/

def HAPI_LZ77_WINDOW_SIZE : Nat := 4095

/-- Decode failure: `unexpectedEof` is the typed
"LZ77 decoding ended prematurely" I/O error the code constructs;
`panicked` marks a Rust panic (`Option::unwrap` on `None`, or an
out-of-bounds `copy_within`); `fuel` is the recursion bound of the
embedding, unreachable from `decode_lz77` since every outer loop
iteration consumes the tag byte. -/
inductive Lz77Err where
  | unexpectedEof
  | panicked
  | fuel
deriving DecidableEq, Repr

inductive Lz77Result where
  | ok (out : List Nat)
  | err (e : Lz77Err)
deriving DecidableEq, Repr

/-- The 4096-byte window vector is embedded as its indexing function
(every source operation keeps the length at `HAPI_LZ77_WINDOW_SIZE + 1 =
4096`, so the length is carried as that constant).  `windowSlice w start
len` materializes `&window[start..start+len]`. -/
def windowSlice (w : Nat → Nat) (start len : Nat) : List Nat :=
  (List.range len).map (fun j => w (start + j))

/-- Model of `window[i] = v`. -/
def setF (w : Nat → Nat) (i v : Nat) : Nat → Nat :=
  fun j => if j = i then v else w j

/-- Model of `Vec::copy_within(s..e, d)` on the window: all reads come from
the pre-state (memmove semantics); `none` models the panic on an
out-of-bounds range (the window length is 4096). -/
def copyWithin (w : Nat → Nat) (s e d : Nat) : Option (Nat → Nat) :=
  if s ≤ e ∧ e ≤ HAPI_LZ77_WINDOW_SIZE + 1 ∧ d + (e - s) ≤ HAPI_LZ77_WINDOW_SIZE + 1 then
    some (fun i => if d ≤ i ∧ i < d + (e - s) then w (s + (i - d)) else w i)
  else none

/-- One iteration of the byte-at-a-time loop in `lz77_pointer_naive_push`:
`window[(dest+j) & 4095] = window[(src+j) & 4095]`, flushing the whole
window to the output buffer when the unmasked destination index hits 4095. -/
def naivePushStep (copyStart dest : Nat) (acc : List Nat × (Nat → Nat)) (j : Nat) :
    List Nat × (Nat → Nat) :=
  let w := setF acc.2 ((dest + j) &&& HAPI_LZ77_WINDOW_SIZE)
    (acc.2 ((copyStart + j) &&& HAPI_LZ77_WINDOW_SIZE))
  (if dest + j = HAPI_LZ77_WINDOW_SIZE
    then acc.1 ++ windowSlice w 0 (HAPI_LZ77_WINDOW_SIZE + 1) else acc.1, w)

/-- Model of `lz77_pointer_naive_push`: naive overlapping copy of
`copyCount` bytes from window position `copyStart` to the current write
position, then the window iterator is advanced (wrapping to a fresh range
when the run crossed the window end).  Returns the new buffer, window and
iterator position. -/
def lz77_pointer_naive_push (buffer : List Nat) (window : Nat → Nat)
    (next copyStart copyCount : Nat) : List Nat × (Nat → Nat) × Nat :=
  let dest := next
  let bw := (List.range copyCount).foldl (naivePushStep copyStart dest) (buffer, window)
  if dest + copyCount > HAPI_LZ77_WINDOW_SIZE then
    (bw.1, bw.2, (dest + copyCount) &&& HAPI_LZ77_WINDOW_SIZE)
  else
    (bw.1, bw.2, dest + copyCount)

/-- Result of processing the (up to 8) decode decisions governed by one tag
byte: end-of-stream sentinel reached, error, or continue with the next tag. -/
inductive BitsOut where
  | done (out : List Nat)
  | err (e : Lz77Err)
  | cont (stream : List Nat) (window : Nat → Nat) (next : Nat) (buffer : List Nat)

/-- Bit loop of `decode_lz77`; `remaining` counts the bits still to process
(the current bit index is `8 - remaining`), `next` is the front of the
window iterator `window_iter` (the range `next..4096`). -/
def decodeBits (tag : Nat) : Nat → List Nat → (Nat → Nat) → Nat → List Nat → BitsOut
  | 0, stream, window, next, buffer => .cont stream window next buffer
  | remaining + 1, stream, window, next, buffer =>
    let bit := 8 - (remaining + 1)
    let flushed :=
      if HAPI_LZ77_WINDOW_SIZE + 1 - next = 0 then
        (buffer ++ windowSlice window 0 (HAPI_LZ77_WINDOW_SIZE + 1), 0)
      else (buffer, next)
    let buffer := flushed.1
    let next := flushed.2
    if tag &&& (1 <<< bit) = 0 then
      match stream with
      | [] => .err .unexpectedEof
      | lit :: rest =>
        decodeBits tag remaining rest (setF window next lit) (next + 1) buffer
    else
      match stream with
      | [] => .err .panicked
      | [_] => .err .panicked
      | lo :: hi :: rest =>
        let offset := (hi <<< 8 ||| lo) >>> 4
        if offset ≠ 0 then
          let off := offset - 1
          let count := (lo &&& 0x0f) + 2
          let dest := next
          if off ≤ dest ∧ dest < off + count then
            let bwn := lz77_pointer_naive_push buffer window next off count
            decodeBits tag remaining rest bwn.2.1 bwn.2.2 bwn.1
          else if off + count > HAPI_LZ77_WINDOW_SIZE then
            let afterWrap := (off + count) &&& HAPI_LZ77_WINDOW_SIZE
            let beforeWrap := count - afterWrap
            match copyWithin window off (HAPI_LZ77_WINDOW_SIZE + 1) dest with
            | none => .err .panicked
            | some window =>
              match copyWithin window 0 afterWrap (dest + beforeWrap) with
              | none => .err .panicked
              | some window =>
                decodeBits tag remaining rest window
                  (min (dest + count) (HAPI_LZ77_WINDOW_SIZE + 1)) buffer
          else if count > HAPI_LZ77_WINDOW_SIZE + 1 - next then
            let dataLen := dest
            let remainingLen := HAPI_LZ77_WINDOW_SIZE + 1 - next
            let buffer := buffer ++ windowSlice window 0 dataLen
            match copyWithin window off (off + remainingLen) dataLen with
            | none => .err .panicked
            | some window =>
              match copyWithin window (off + remainingLen) (off + count) 0 with
              | none => .err .panicked
              | some window =>
                decodeBits tag remaining rest window
                  ((dataLen + count) &&& HAPI_LZ77_WINDOW_SIZE)
                  (buffer ++ windowSlice window dataLen (HAPI_LZ77_WINDOW_SIZE + 1 - dataLen))
          else
            match copyWithin window off (off + count) dest with
            | none => .err .panicked
            | some window =>
              decodeBits tag remaining rest window (dest + count) buffer
        else
          let dataLen := (HAPI_LZ77_WINDOW_SIZE + 1) - (HAPI_LZ77_WINDOW_SIZE + 1 - next)
          .done (buffer ++ windowSlice window 0 dataLen)

/-- Outer loop of `decode_lz77`: read a tag byte, process its 8 decisions,
repeat.  The fuel only bounds the recursion of the embedding; each
iteration consumes at least the tag byte, so `stream.length + 1` fuel can
never run out. -/
def decodeLz77Go (fuel : Nat) (stream : List Nat) (window : Nat → Nat) (next : Nat)
    (buffer : List Nat) : Lz77Result :=
  match fuel with
  | 0 => .err .fuel
  | fuel + 1 =>
    match stream with
    | [] => .err .unexpectedEof
    | tag :: rest =>
      match decodeBits tag 8 rest window next buffer with
      | .done out => .ok out
      | .err e => .err e
      | .cont stream window next buffer => decodeLz77Go fuel stream window next buffer

/-- Model of `HapiCompressedChunk::decode_lz77` on the byte stream produced
by the chunk decoder: the window is a zero-initialized 4096-byte vector
(`resize_with(4096, Default::default)`), the window iterator starts at 0
and the output buffer is empty. -/
def decode_lz77 (stream : List Nat) : Lz77Result :=
  let stream := stream.map (fun b => b % 256)
  decodeLz77Go (stream.length + 1) stream (fun _ => 0) 0 []

/-! ## Reference byte-at-a-time circular-window LZ77 semantics

Modelled from the spec (§4.6): copy `count` bytes starting at window
position `offset` to the current write position one byte at a time, wrap
both read and write positions modulo the 4096-byte window, flush the
window to the output buffer as it fills, and treat unexpected end of input
at any point as a hard decode error distinct from the sentinel. -/

/-- Reference semantics: write one byte at the current window position,
flushing the filled window and wrapping the write position. -/
def refWrite (w : Nat → Nat) (pos : Nat) (buf : List Nat) (b : Nat) :
    (Nat → Nat) × Nat × List Nat :=
  let w := setF w pos b
  if pos = HAPI_LZ77_WINDOW_SIZE then
    (w, 0, buf ++ windowSlice w 0 (HAPI_LZ77_WINDOW_SIZE + 1))
  else (w, pos + 1, buf)

/-- Reference semantics: copy `count` bytes one at a time from window
position `src` (wrapping modulo 4096) to the write position, reading bytes
that the same run may just have written. -/
def refBackref (w : Nat → Nat) (pos : Nat) (buf : List Nat) (src : Nat) :
    Nat → (Nat → Nat) × Nat × List Nat
  | 0 => (w, pos, buf)
  | k + 1 =>
    let b := w (src % (HAPI_LZ77_WINDOW_SIZE + 1))
    let wpb := refWrite w pos buf b
    refBackref wpb.1 wpb.2.1 wpb.2.2 (src + 1) k

/-- Reference semantics: the bit loop for one tag byte. -/
def refBits (tag : Nat) : Nat → List Nat → (Nat → Nat) → Nat → List Nat → BitsOut
  | 0, stream, w, pos, buf => .cont stream w pos buf
  | remaining + 1, stream, w, pos, buf =>
    let bit := 8 - (remaining + 1)
    if tag &&& (1 <<< bit) = 0 then
      match stream with
      | [] => .err .unexpectedEof
      | lit :: rest =>
        let wpb := refWrite w pos buf lit
        refBits tag remaining rest wpb.1 wpb.2.1 wpb.2.2
    else
      match stream with
      | lo :: hi :: rest =>
        let pointer := (hi <<< 8 ||| lo) >>> 4
        if pointer = 0 then .done (buf ++ windowSlice w 0 pos)
        else
          let wpb := refBackref w pos buf (pointer - 1) ((lo &&& 0x0f) + 2)
          refBits tag remaining rest wpb.1 wpb.2.1 wpb.2.2
      | _ => .err .unexpectedEof

/-- Reference semantics: outer loop. -/
def refGo (fuel : Nat) (stream : List Nat) (w : Nat → Nat) (pos : Nat)
    (buf : List Nat) : Lz77Result :=
  match fuel with
  | 0 => .err .fuel
  | fuel + 1 =>
    match stream with
    | [] => .err .unexpectedEof
    | tag :: rest =>
      match refBits tag 8 rest w pos buf with
      | .done out => .ok out
      | .err e => .err e
      | .cont stream w pos buf => refGo fuel stream w pos buf

/-- Reference byte-at-a-time circular-window decoder, modelled from the
spec's §4.6 wording. -/
def lz77_reference (stream : List Nat) : Lz77Result :=
  let stream := stream.map (fun b => b % 256)
  refGo (stream.length + 1) stream (fun _ => 0) 0 []

/-! ## Chunk decompression driver (src/hapi/archive/file_decoder.rs, `decompress`) -/

/-- Result of `HapiCompressedChunk::decompress`: on success the bytes
written to the output sink are returned together with the flag saying
whether the non-fatal decompressed-size warning was printed.
`panicNone` models the `unreachable!` on a `None`-compressed chunk. -/
inductive DecompressResult where
  | ok (out : List Nat) (sizeWarning : Bool)
  | err (e : Lz77Err)
  | panicNone
  | zlibErr
deriving DecidableEq, Repr

/-- Byte stream a decoder consuming the `HapiChunkDecoder` sees: the raw
payload, deciphered chunk-locally when `is_enciphered` is set. -/
def chunkStream (c : HapiCompressedChunk) : List Nat :=
  if c.is_enciphered then decipherFrom 0 c.data else c.data

/-- Model of `decompress`: dispatch on the compression kind (`inflate` is
the external zlib decoder), then compare the actual decompressed byte count
against the declared size — a mismatch only sets the warning flag, it never
fails the operation or truncates the output. -/
def decompress (inflate : List Nat → Option (List Nat))
    (c : HapiCompressedChunk) : DecompressResult :=
  match c.compression with
  | .cnone => .panicNone
  | .lz77 =>
    match decode_lz77 (chunkStream c) with
    | .err e => .err e
    | .ok out => .ok out (decide (out.length ≠ c.decompressed_size))
  | .zlib =>
    match inflate (chunkStream c) with
    | none => .zlibErr
    | some out => .ok out (decide (out.length ≠ c.decompressed_size))

/-- Sequential decompression of a chunk list in order, concatenating the
outputs (the `try_for_each` over chunks in `write_file`). -/
def decompressSeq (inflate : List Nat → Option (List Nat)) :
    List HapiCompressedChunk → Option (List Nat)
  | [] => some []
  | c :: cs =>
    match decompress inflate c with
    | .ok out _ =>
      match decompressSeq inflate cs with
      | some rest => some (out ++ rest)
      | none => none
    | _ => none

/-! ## Supporting lemmas -/

theorem xor_mod_two_pow (x y n : Nat) : (x ^^^ y) % 2 ^ n = x % 2 ^ n ^^^ y % 2 ^ n := by
  apply Nat.eq_of_testBit_eq
  intro i
  simp only [Nat.testBit_mod_two_pow, Nat.testBit_xor]
  by_cases h : i < n <;> simp [h]

theorem hapiDecipherByte_lt (k o b : Nat) : hapiDecipherByte k o b < 256 := by
  unfold hapiDecipherByte
  have h256 : (256 : Nat) = 2 ^ 8 := by norm_num
  rw [h256]
  exact Nat.xor_lt_two_pow (h256 ▸ Nat.mod_lt _ (by norm_num))
    (Nat.xor_lt_two_pow (h256 ▸ Nat.mod_lt _ (by norm_num)) (by norm_num))

theorem xor_cancel_left (x y : Nat) : x ^^^ (x ^^^ y) = y := by
  rw [← Nat.xor_assoc, Nat.xor_self, Nat.zero_xor]

theorem hapiDecipherByte_involutive (k o b : Nat) (hb : b < 256) :
    hapiDecipherByte k o (hapiDecipherByte k o b) = b := by
  have hx := hapiDecipherByte_lt k o b
  unfold hapiDecipherByte at hx ⊢
  rw [Nat.mod_eq_of_lt hx, Nat.mod_eq_of_lt hb]
  rw [Nat.xor_assoc, Nat.xor_assoc, Nat.xor_self, Nat.xor_zero, xor_cancel_left]

theorem readerMap_roundtrip (k so : Nat) (bytes : List Nat) : ∀ (p : Nat),
    (∀ b ∈ bytes, b < 256) → readerMap k so p (readerMap k so p bytes) = bytes := by
  induction bytes with
  | nil => intro p _; rfl
  | cons b bs ih =>
    intro p h
    by_cases hso : so ≤ p
    · simp only [readerMap, if_pos hso]
      rw [hapiDecipherByte_involutive _ _ _ (h b (by simp)),
        ih (p + 1) (fun x hx => h x (by simp [hx]))]
    · simp only [readerMap, if_neg hso]
      rw [ih (p + 1) (fun x hx => h x (by simp [hx]))]

/-! ## Claim theorems: cipher layer -/

theorem readerReadSeq_roundtrip (k so : Nat) (reads : List (Nat × List Nat))
    (h : ∀ pr ∈ reads, ∀ b ∈ pr.2, b < 256) :
    readerReadSeq (some k) so (readerReadSeq (some k) so reads) = reads := by
  induction reads with
  | nil => rfl
  | cons pr prs ih =>
    obtain ⟨p, bs⟩ := pr
    simp only [readerReadSeq, List.map_cons] at ih ⊢
    rw [show hapiReaderRead (some k) so p (hapiReaderRead (some k) so p bs) = bs from
      readerMap_roundtrip k so bs p (h (p, bs) (by simp))]
    rw [ih (fun x hx => h x (by simp [hx]))]

/-- C3: the per-byte archive decipher applied by `HapiReader::read` is
self-inverse — for every key, absolute offset and byte below 256 the
transform `((o XOR k) as u8) XOR (NOT byte)` applied twice restores the
byte — hence reading the reader's own encoding with the same key at the
same positions reproduces the original bytes for any sequence of reads at
arbitrary, possibly non-monotonic, seek targets; and with no key (seed 0)
every byte below or above the boundary passes through unchanged. -/
theorem c3_cipher_roundtrip :
    (∀ k o b, b < 256 → hapiDecipherByte k o (hapiDecipherByte k o b) = b) ∧
    (∀ k so pos bytes, (∀ b ∈ bytes, b < 256) →
      hapiReaderRead (some k) so pos (hapiReaderRead (some k) so pos bytes) = bytes) ∧
    (∀ k so reads, (∀ pr ∈ reads, ∀ b ∈ pr.2, b < 256) →
      readerReadSeq (some k) so (readerReadSeq (some k) so reads) = reads) ∧
    (∀ so pos bytes, hapiReaderRead none so pos bytes = bytes) :=
  ⟨fun k o b hb => hapiDecipherByte_involutive k o b hb,
   fun k so pos bytes h => readerMap_roundtrip k so bytes pos h,
   fun k so reads h => readerReadSeq_roundtrip k so reads h,
   fun _ _ _ => rfl⟩

/-- Witness for C3 at a concrete key, boundary and a non-monotonic pair of
reads (positions 9 then 2) straddling the cipher boundary. -/
theorem c3_cipher_roundtrip_witness :
    hapiDecipherByte 3735928559 100 (hapiDecipherByte 3735928559 100 77) = 77 ∧
    hapiReaderRead (some 123) 4 2 (hapiReaderRead (some 123) 4 2 [10, 20, 30, 40]) =
      [10, 20, 30, 40] ∧
    readerReadSeq (some 123) 4
      (readerReadSeq (some 123) 4 [(9, [1, 2]), (2, [10, 20, 30, 40])]) =
      [(9, [1, 2]), (2, [10, 20, 30, 40])] ∧
    hapiReaderRead none 4 2 [10, 20, 30, 40] = [10, 20, 30, 40] :=
  ⟨c3_cipher_roundtrip.1 3735928559 100 77 (by decide),
   c3_cipher_roundtrip.2.1 123 4 2 [10, 20, 30, 40] (by decide),
   c3_cipher_roundtrip.2.2.1 123 4 [(9, [1, 2]), (2, [10, 20, 30, 40])] (by decide),
   c3_cipher_roundtrip.2.2.2 4 2 [10, 20, 30, 40]⟩

/-- C8: both key-derivation sites (the binrw field map in src/hapi.rs and
`HapiReader::new` in src/hapi/reader.rs) derive the same key; the key is
absent exactly when the raw seed is 0, and for a nonzero seed it equals
`NOT((seed * 4) OR (seed >> 6))` in 32-bit arithmetic. -/
theorem c8_key_derivation (seed : Nat) (hseed : seed < U32) :
    hapiHeaderKey seed = readerDeriveKey seed ∧
    (hapiHeaderKey seed = none ↔ seed = 0) ∧
    (seed ≠ 0 → hapiHeaderKey seed = some (not32 ((seed * 4) % U32 ||| seed >>> 6))) := by
  refine ⟨rfl, ?_, fun hne => ?_⟩
  · unfold hapiHeaderKey
    by_cases h0 : seed = 0 <;> simp [h0]
  · unfold hapiHeaderKey
    simp [hne]

/-- Witness for C8 at seed 5 (key `NOT 20`) and, via the iff, at seed 0. -/
theorem c8_key_derivation_witness :
    hapiHeaderKey 5 = readerDeriveKey 5 ∧
    (hapiHeaderKey 0 = none ↔ (0 : Nat) = 0) ∧
    hapiHeaderKey 5 = some 4294967275 :=
  ⟨(c8_key_derivation 5 (by decide)).1,
   (c8_key_derivation 0 (by decide)).2.1,
   by rw [(c8_key_derivation 5 (by decide)).2.2 (by decide)]; decide⟩

/-! ## Claim theorems: chunk-local decipher -/

theorem chunkDecipherByte_eq_spec (i b : Nat) :
    chunkDecipherByte i b = chunkDecipherSpec i b := by
  unfold chunkDecipherByte chunkDecipherSpec
  have h256 : (256 : Nat) = 2 ^ 8 := by norm_num
  rw [h256, xor_mod_two_pow, ← h256]
  have hm : ∀ x : Nat, x % U64 % 256 = x % 256 :=
    fun x => Nat.mod_mod_of_dvd x (by norm_num [U64])
  rw [hm, hm]
  congr 1
  simp only [U64]
  omega

theorem decipherFrom_eq_spec (data : List Nat) : ∀ p : Nat,
    decipherFrom p data = decipherSpecFrom p data := by
  induction data with
  | nil => intro _; rfl
  | cons b bs ih =>
    intro p
    simp only [decipherFrom, decipherSpecFrom]
    rw [chunkDecipherByte_eq_spec p b, ih (p + 1)]

theorem decipherFrom_append (xs : List Nat) : ∀ (p : Nat) (ys : List Nat),
    decipherFrom p (xs ++ ys) = decipherFrom p xs ++ decipherFrom (p + xs.length) ys := by
  induction xs with
  | nil => intro p ys; simp [decipherFrom]
  | cons b bs ih =>
    intro p ys
    show chunkDecipherByte p b :: decipherFrom (p + 1) (bs ++ ys) = _
    rw [ih (p + 1) ys]
    show _ = chunkDecipherByte p b :: (decipherFrom (p + 1) bs ++
      decipherFrom (p + (b :: bs).length) ys)
    rw [show p + (b :: bs).length = p + 1 + bs.length by simp; omega]

theorem decipherFrom_length (xs : List Nat) : ∀ p : Nat,
    (decipherFrom p xs).length = xs.length := by
  induction xs with
  | nil => intro _; rfl
  | cons b bs ih => intro p; simp [decipherFrom, ih]

theorem take_length_drop (l : List Nat) (n : Nat) :
    l.take n ++ l.drop ((l.take n).length) = l := by
  rcases Nat.le_total n l.length with h | h
  · rw [List.length_take, Nat.min_eq_left h, List.take_append_drop]
  · rw [List.take_of_length_le h, List.drop_eq_nil_of_le (by rfl), List.append_nil]

theorem take_drop_cover (data : List Nat) (pos n : Nat) :
    (data.drop pos).take n ++ data.drop (pos + ((data.drop pos).take n).length) =
      data.drop pos := by
  rw [← List.drop_drop]
  exact take_length_drop (data.drop pos) n

theorem chunkReads_covers (data : List Nat) (enc : Bool) (splits : List Nat) :
    ∀ pos : Nat, data.length ≤ pos + splits.sum →
    chunkReads data enc pos splits =
      (if enc then decipherFrom pos (data.drop pos) else data.drop pos) := by
  induction splits with
  | nil =>
    intro pos h
    simp only [List.sum_nil, Nat.add_zero] at h
    rw [List.drop_eq_nil_of_le h]
    cases enc <;> rfl
  | cons n ns ih =>
    intro pos h
    simp only [List.sum_cons] at h
    have hlen : ((data.drop pos).take n).length = min n (data.length - pos) := by simp
    cases enc with
    | false =>
      show (data.drop pos).take n ++
          chunkReads data false (pos + ((data.drop pos).take n).length) ns =
        data.drop pos
      rw [ih (pos + ((data.drop pos).take n).length) (by rw [hlen]; omega)]
      show (data.drop pos).take n ++
          data.drop (pos + ((data.drop pos).take n).length) = data.drop pos
      exact take_drop_cover data pos n
    | true =>
      show decipherFrom pos ((data.drop pos).take n) ++
          chunkReads data true
            (pos + (decipherFrom pos ((data.drop pos).take n)).length) ns =
        decipherFrom pos (data.drop pos)
      rw [decipherFrom_length]
      rw [ih (pos + ((data.drop pos).take n).length) (by rw [hlen]; omega)]
      show decipherFrom pos ((data.drop pos).take n) ++
          decipherFrom (pos + ((data.drop pos).take n).length)
            (data.drop (pos + ((data.drop pos).take n).length)) =
        decipherFrom pos (data.drop pos)
      rw [← decipherFrom_append, take_drop_cover]

/-- C7: streaming a chunk's payload out through `HapiChunkDecoder` over any
sequence of read-call sizes that covers the payload yields, for an
enciphered chunk, exactly the bytes `(byte[i] - i) XOR i` (8-bit
arithmetic, `i` the position within the chunk's own payload), and for a
plain chunk the payload unchanged — independent of how the stream is split
across read calls. -/
theorem c7_chunk_decipher (data : List Nat) (enc : Bool) (splits : List Nat)
    (hcover : data.length ≤ splits.sum) :
    chunkReads data enc 0 splits =
      (if enc then decipherSpecFrom 0 data else data) := by
  rw [chunkReads_covers data enc splits 0 (by omega)]
  cases enc with
  | false => rfl
  | true =>
    show decipherFrom 0 (data.drop 0) = decipherSpecFrom 0 data
    rw [List.drop_zero, decipherFrom_eq_spec]

/-- Witness for C7: payload `[1, 250, 3]` read in two calls of sizes 2 and 5,
enciphered and plain. -/
theorem c7_chunk_decipher_witness :
    chunkReads [1, 250, 3] true 0 [2, 5] = decipherSpecFrom 0 [1, 250, 3] ∧
    chunkReads [1, 250, 3] false 0 [2, 5] = [1, 250, 3] :=
  ⟨by rw [c7_chunk_decipher [1, 250, 3] true [2, 5] (by decide)]; rfl,
   by rw [c7_chunk_decipher [1, 250, 3] false [2, 5] (by decide)]; rfl⟩

/-! ## Claim theorems: chunk checksum -/

theorem chunkChecksum_go (data : List Nat) : ∀ a : Nat,
    data.foldl (fun c b => (c + b) % U32) (a % U32) = (a + data.sum) % U32 := by
  induction data with
  | nil => intro a; simp [List.foldl]
  | cons x xs ih =>
    intro a
    show xs.foldl (fun c b => (c + b) % U32) ((a % U32 + x) % U32) = _
    rw [Nat.mod_add_mod, ih (a + x)]
    simp [Nat.add_assoc]

theorem chunkChecksum_eq_sum (data : List Nat) : chunkChecksum data = data.sum % U32 := by
  have h := chunkChecksum_go data 0
  simpa [chunkChecksum] using h

theorem sum_set (data : List Nat) : ∀ (i b : Nat), i < data.length →
    (data.set i b).sum + data.getD i 0 = data.sum + b := by
  induction data with
  | nil => intro i b h; simp at h
  | cons x xs ih =>
    intro i b h
    cases i with
    | zero => simp [List.set, List.sum_cons]; omega
    | succ j =>
      simp only [List.set, List.sum_cons, List.getD_cons_succ]
      have := ih j b (by simpa using h)
      omega

theorem readU32_le32 (n : Nat) (h : n < U32) :
    ∀ rest : List Nat, readU32 (le32 n ++ rest) = some (n, rest) := by
  intro rest
  show some (n % 256 % 256 + 256 * (n / 256 % 256 % 256) + 65536 * (n / 65536 % 256 % 256) +
    16777216 * (n / 16777216 % 256 % 256), rest) = some (n, rest)
  have h32 : n < 4294967296 := by simpa [U32] using h
  have : n % 256 % 256 + 256 * (n / 256 % 256 % 256) + 65536 * (n / 65536 % 256 % 256) +
      16777216 * (n / 16777216 % 256 % 256) = n := by omega
  rw [this]

theorem getD_mem_of_lt (l : List Nat) : ∀ i : Nat, i < l.length → l.getD i 0 ∈ l := by
  induction l with
  | nil => intro i h; simp at h
  | cons x xs ih =>
    intro i h
    cases i with
    | zero => simp
    | succ j =>
      simp only [List.getD_cons_succ]
      exact List.mem_cons_of_mem _ (ih j (by simpa using h))

theorem parseChunk_serialize (c : HapiCompressedChunk) (rest : List Nat) (hwf : ChunkWF c) :
    parseChunk (serializeChunk c ++ rest) =
      (if chunkChecksum c.data = c.checksum
       then .ok c rest
       else .err (.checksumMismatch c.checksum (chunkChecksum c.data))) := by
  obtain ⟨hbytes, hcs, hcs32, hds32, hck32, hcomp⟩ := hwf
  obtain ⟨comp, enc, csize, dsize, cksum, data⟩ := c
  simp only at hbytes hcs hcs32 hds32 hck32 hcomp ⊢
  subst hcs
  cases comp with
  | cnone => exact absurd rfl hcomp
  | lz77 =>
    cases enc <;>
      simp [serializeChunk, parseChunk, List.cons_append, List.append_assoc,
        decodeCompressionByte, compressionByte, readU32_le32 _ hcs32,
        readU32_le32 _ hds32, readU32_le32 _ hck32, List.take_left, List.drop_left]
  | zlib =>
    cases enc <;>
      simp [serializeChunk, parseChunk, List.cons_append, List.append_assoc,
        decodeCompressionByte, compressionByte, readU32_le32 _ hcs32,
        readU32_le32 _ hds32, readU32_le32 _ hck32, List.take_left, List.drop_left]

/-- C4: parsing a compressed chunk checks that the wrapping 32-bit sum of
the payload equals the header's checksum field, failing with an error
naming the expected and the actual sum; flipping any single payload byte
to a different value changes the wrapping sum and therefore fails the
parse, while the unmodified payload with the correct checksum always
parses. -/
theorem c4_checksum_flip (c : HapiCompressedChunk) (rest : List Nat) (i b : Nat)
    (hwf : ChunkWF c) (hck : c.checksum = chunkChecksum c.data)
    (hi : i < c.data.length) (hb : b < 256) (hne : b ≠ c.data.getD i 0) :
    parseChunk (serializeChunk c ++ rest) = .ok c rest ∧
    chunkChecksum (c.data.set i b) ≠ c.checksum ∧
    parseChunk (serializeChunk { c with data := c.data.set i b } ++ rest) =
      .err (.checksumMismatch c.checksum (chunkChecksum (c.data.set i b))) := by
  have hmod : chunkChecksum (c.data.set i b) ≠ c.checksum := by
    rw [hck, chunkChecksum_eq_sum, chunkChecksum_eq_sum]
    have hsum := sum_set c.data i b hi
    have hold : c.data.getD i 0 < 256 := hwf.1 _ (getD_mem_of_lt c.data i hi)
    intro hcontra
    simp only [U32] at hcontra
    omega
  refine ⟨?_, hmod, ?_⟩
  · rw [parseChunk_serialize c rest hwf, if_pos hck.symm]
  · have hwf2 : ChunkWF { c with data := c.data.set i b } := by
      obtain ⟨hbytes, hcs, hcs32, hds32, hck32, hcomp⟩ := hwf
      refine ⟨?_, by simpa using hcs, by simpa using hcs32, hds32, hck32, hcomp⟩
      intro x hx
      rcases List.mem_or_eq_of_mem_set hx with h | h
      · exact hbytes x h
      · omega
    rw [parseChunk_serialize _ rest hwf2]
    show (if chunkChecksum (c.data.set i b) = c.checksum then _ else _) = _
    rw [if_neg hmod]

/-- Witness for C4: a two-byte payload chunk with correct checksum parses;
flipping its second byte to 9 fails with a checksum mismatch. -/
theorem c4_checksum_flip_witness :
    parseChunk (serializeChunk ⟨.lz77, false, 2, 2, 11, [4, 7]⟩ ++ [99]) =
      .ok ⟨.lz77, false, 2, 2, 11, [4, 7]⟩ [99] ∧
    chunkChecksum ([4, 7].set 1 9) ≠ 11 ∧
    parseChunk (serializeChunk ⟨.lz77, false, 2, 2, 11, [4, 9]⟩ ++ [99]) =
      .err (.checksumMismatch 11 13) :=
  ⟨(c4_checksum_flip ⟨.lz77, false, 2, 2, 11, [4, 7]⟩ [99] 1 9
      (by unfold ChunkWF; decide) (by decide) (by decide) (by decide) (by decide)).1,
   (c4_checksum_flip ⟨.lz77, false, 2, 2, 11, [4, 7]⟩ [99] 1 9
      (by unfold ChunkWF; decide) (by decide) (by decide) (by decide) (by decide)).2.1,
   (c4_checksum_flip ⟨.lz77, false, 2, 2, 11, [4, 7]⟩ [99] 1 9
      (by unfold ChunkWF; decide) (by decide) (by decide) (by decide) (by decide)).2.2⟩

/-! ## Claim theorems: compressed file contents layout -/

theorem readU32s_le32s (sizes : List Nat) : ∀ rest : List Nat, (∀ s ∈ sizes, s < U32) →
    readU32s sizes.length ((sizes.map le32).flatten ++ rest) = some (sizes, rest) := by
  induction sizes with
  | nil => intro rest _; rfl
  | cons s ss ih =>
    intro rest h
    simp only [List.map_cons, List.flatten_cons, List.length_cons, List.append_assoc, readU32s,
      readU32_le32 _ (h s (by simp)), ih rest (fun x hx => h x (by simp [hx]))]

theorem parseChunks_serialize (chunks : List HapiCompressedChunk) : ∀ rest : List Nat,
    (∀ c ∈ chunks, ChunkWF c ∧ chunkChecksum c.data = c.checksum) →
    parseChunks chunks.length ((chunks.map serializeChunk).flatten ++ rest) =
      .ok chunks rest := by
  induction chunks with
  | nil => intro rest _; rfl
  | cons c cs ih =>
    intro rest h
    have hc := h c (by simp)
    simp only [List.map_cons, List.flatten_cons, List.length_cons, List.append_assoc,
      parseChunks, parseChunk_serialize c _ hc.1, hc.2, ite_true, eq_self_iff_true,
      ih rest (fun x hx => h x (by simp [hx]))]

/-- C5 counterexample: the claim says the chunks are read back-to-back from
the payload offset, but the code first reads one 32-bit chunk-size entry
per chunk.  On the actual byte layout (a 4-byte size entry followed by one
valid chunk) the code parses the chunk, while the behaviour described by
the claim fails on a bad chunk magic. -/
theorem c5_chunks_not_at_payload_offset :
    parseFileContents 1 .lz77
      (le32 0 ++ serializeChunk ⟨.lz77, false, 5, 2, 19, [3, 16, 0, 0, 0]⟩) =
      .ok (.compressed [⟨.lz77, false, 5, 2, 19, [3, 16, 0, 0, 0]⟩]) [] ∧
    parseFileContentsClaimed 1 .lz77
      (le32 0 ++ serializeChunk ⟨.lz77, false, 5, 2, 19, [3, 16, 0, 0, 0]⟩) =
      .err .badMagic ∧
    parseFileContentsClaimed 1 .lz77
      (le32 0 ++ serializeChunk ⟨.lz77, false, 5, 2, 19, [3, 16, 0, 0, 0]⟩) ≠
    parseFileContents 1 .lz77
      (le32 0 ++ serializeChunk ⟨.lz77, false, 5, 2, 19, [3, 16, 0, 0, 0]⟩) := by
  decide

/-- C5 (amended): for a file entry whose compression kind is not `None`,
resolving its contents computes a chunk count `(extracted_size + 65535) /
65536` in wrapping 32-bit arithmetic (the exact ceiling whenever the sum
does not wrap), reads that many 32-bit chunk-size entries (unused), then
reads that many CompressedChunk headers plus payload bytes back-to-back,
and decompresses each chunk in sequence into the output in order. -/
theorem c5_size_table_then_chunks (extractedSize : Nat) (comp : HapiCompressionType)
    (sizes : List Nat) (chunks : List HapiCompressedChunk)
    (hcomp : comp ≠ .cnone)
    (hsizes : sizes.length = chunkCount extractedSize)
    (hchunks : chunks.length = chunkCount extractedSize)
    (hs32 : ∀ s ∈ sizes, s < U32)
    (hwf : ∀ c ∈ chunks, ChunkWF c ∧ chunkChecksum c.data = c.checksum) :
    parseFileContents extractedSize comp
      ((sizes.map le32).flatten ++ (chunks.map serializeChunk).flatten) =
      .ok (.compressed chunks) [] ∧
    (extractedSize + HAPI_CHUNK_SIZE - 1 < U32 →
      chunkCount extractedSize = (extractedSize + HAPI_CHUNK_SIZE - 1) / HAPI_CHUNK_SIZE) ∧
    (∀ inflate c cs out w outs, decompress inflate c = .ok out w →
      decompressSeq inflate cs = some outs →
      decompressSeq inflate (c :: cs) = some (out ++ outs)) := by
  refine ⟨?_, fun hlt => ?_, fun inflate c cs out w outs h1 h2 => ?_⟩
  · have hread := readU32s_le32s sizes ((chunks.map serializeChunk).flatten ++ []) hs32
    rw [List.append_nil] at hread
    have hparse := parseChunks_serialize chunks [] hwf
    rw [List.append_nil] at hparse
    cases comp with
    | cnone => exact absurd rfl hcomp
    | lz77 =>
      have hread2 : readU32s (chunkCount extractedSize)
          ((sizes.map le32).flatten ++ (chunks.map serializeChunk).flatten) =
          some (sizes, (chunks.map serializeChunk).flatten) := by
        rw [← hsizes]; exact hread
      have hparse2 : parseChunks (chunkCount extractedSize)
          ((chunks.map serializeChunk).flatten) = .ok chunks [] := by
        rw [← hchunks]; exact hparse
      show (match readU32s (chunkCount extractedSize)
          ((sizes.map le32).flatten ++ (chunks.map serializeChunk).flatten) with
        | none => FileContentsResult.err .truncated
        | some (_sizes, rest) =>
          match parseChunks (chunkCount extractedSize) rest with
          | .err e => FileContentsResult.err e
          | .ok cs rest => FileContentsResult.ok (.compressed cs) rest) =
        .ok (.compressed chunks) []
      simp only [hread2, hparse2]
    | zlib =>
      have hread2 : readU32s (chunkCount extractedSize)
          ((sizes.map le32).flatten ++ (chunks.map serializeChunk).flatten) =
          some (sizes, (chunks.map serializeChunk).flatten) := by
        rw [← hsizes]; exact hread
      have hparse2 : parseChunks (chunkCount extractedSize)
          ((chunks.map serializeChunk).flatten) = .ok chunks [] := by
        rw [← hchunks]; exact hparse
      show (match readU32s (chunkCount extractedSize)
          ((sizes.map le32).flatten ++ (chunks.map serializeChunk).flatten) with
        | none => FileContentsResult.err .truncated
        | some (_sizes, rest) =>
          match parseChunks (chunkCount extractedSize) rest with
          | .err e => FileContentsResult.err e
          | .ok cs rest => FileContentsResult.ok (.compressed cs) rest) =
        .ok (.compressed chunks) []
      simp only [hread2, hparse2]
  · unfold chunkCount
    rw [Nat.mod_eq_of_lt hlt]
  · simp only [decompressSeq, h1, h2]

/-- Witness for C5 (amended) at one size entry and one concrete chunk. -/
theorem c5_size_table_then_chunks_witness :
    parseFileContents 1 .lz77
      (([0].map le32).flatten ++
        ([⟨.lz77, false, 5, 2, 19, [3, 16, 0, 0, 0]⟩].map serializeChunk).flatten) =
      .ok (.compressed [⟨.lz77, false, 5, 2, 19, [3, 16, 0, 0, 0]⟩]) [] :=
  (c5_size_table_then_chunks 1 .lz77 [0] [⟨.lz77, false, 5, 2, 19, [3, 16, 0, 0, 0]⟩]
    (by decide) (by decide) (by decide) (by decide)
    (by unfold ChunkWF; decide)).1

/-! ## Claim theorems: LZ77 decoder -/

/-- C1 (code bug): on the LZ77 chunk stream
`18 01 02 03 FF FF 00 00` — three literals `1, 2, 3`, then a back-reference
with pointer 4095 (offset 4094, count 17) whose source range wraps around
the window end and overlaps the destination, then the sentinel — the
decoder's wrap branch block-copies the wrapped source before the overlap
bytes are produced and emits stale zero bytes, while the reference
byte-at-a-time circular-window semantics (and the spec) requires the
period-5 repetition `1 2 3 0 0 ...`; the two decoders disagree at output
index 10. -/
theorem c1_wrapped_overlap_diverges :
    decode_lz77 [0x18, 1, 2, 3, 0xFF, 0xFF, 0, 0] =
      .ok [1, 2, 3, 0, 0, 1, 2, 3, 0, 0, 0, 0, 0, 0, 0, 0, 0, 0, 0, 0] ∧
    lz77_reference [0x18, 1, 2, 3, 0xFF, 0xFF, 0, 0] =
      .ok [1, 2, 3, 0, 0, 1, 2, 3, 0, 0, 1, 2, 3, 0, 0, 1, 2, 3, 0, 0] ∧
    decode_lz77 [0x18, 1, 2, 3, 0xFF, 0xFF, 0, 0] ≠
      lz77_reference [0x18, 1, 2, 3, 0xFF, 0xFF, 0, 0] := by
  decide

/-- C2 (code bug): end of input before a tag byte or before a literal byte
is the typed "decoding ended prematurely" error, but end of input before
either byte of a back-reference pointer hits `input.next().unwrap()` on
`None` and panics instead of returning the typed decode error the claim
(and the spec) require — and a panic is not the eof error. -/
theorem c2_mid_pointer_eof_panics :
    decode_lz77 [] = .err .unexpectedEof ∧
    decode_lz77 [0] = .err .unexpectedEof ∧
    decode_lz77 [1] = .err .panicked ∧
    decode_lz77 [1, 0xFF] = .err .panicked ∧
    Lz77Err.panicked ≠ Lz77Err.unexpectedEof := by
  decide

theorem decodeBits_sentinel (tag remaining lo hi : Nat) (rest : List Nat) (w : Nat → Nat)
    (next : Nat) (buf : List Nat) (hn : next < HAPI_LZ77_WINDOW_SIZE + 1)
    (hbit : tag &&& (1 <<< (8 - (remaining + 1))) ≠ 0)
    (hp : (hi <<< 8 ||| lo) >>> 4 = 0) :
    decodeBits tag (remaining + 1) (lo :: hi :: rest) w next buf =
      .done (buf ++ windowSlice w 0 next) := by
  have hflush : ¬(HAPI_LZ77_WINDOW_SIZE + 1 - next = 0) := by
    simp only [HAPI_LZ77_WINDOW_SIZE] at hn ⊢
    omega
  have hdl : HAPI_LZ77_WINDOW_SIZE + 1 - (HAPI_LZ77_WINDOW_SIZE + 1 - next) = next := by
    simp only [HAPI_LZ77_WINDOW_SIZE] at hn ⊢
    omega
  simp only [decodeBits, if_neg hflush, if_neg hbit, hp, ne_eq, not_true_eq_false,
    ite_false, if_neg (by simp : ¬(0 ≠ 0))]
  rw [hdl]

/-- C6: when the decoder reads a back-reference whose 16-bit value shifted
right by 4 is 0 (the end-of-stream sentinel), it flushes the
buffered-but-unflushed window prefix `window[0..next]` to the output and
stops: the decode returns exactly the previously flushed output plus that
final partial flush, whose length is the flushed length plus `next`. -/
theorem c6_sentinel_flush (fuel : Nat) (tag lo hi : Nat) (rest : List Nat)
    (w : Nat → Nat) (next : Nat) (buffer : List Nat)
    (hn : next < HAPI_LZ77_WINDOW_SIZE + 1)
    (hbit : tag &&& 1 ≠ 0)
    (hp : (hi <<< 8 ||| lo) >>> 4 = 0) :
    decodeLz77Go (fuel + 1) (tag :: lo :: hi :: rest) w next buffer =
      .ok (buffer ++ windowSlice w 0 next) ∧
    (buffer ++ windowSlice w 0 next).length = buffer.length + next := by
  constructor
  · show (match decodeBits tag 8 (lo :: hi :: rest) w next buffer with
      | .done out => Lz77Result.ok out
      | .err e => Lz77Result.err e
      | .cont s w2 n2 b2 => decodeLz77Go fuel s w2 n2 b2) = _
    rw [decodeBits_sentinel tag 7 lo hi rest w next buffer hn (by simpa using hbit) hp]
  · simp [windowSlice]

/-- Witness for C6: sentinel hit with 5 unflushed window bytes and one
already-flushed byte. -/
theorem c6_sentinel_flush_witness :
    decodeLz77Go 1 [1, 0, 0] (fun _ => 0) 5 [9] =
      .ok ([9] ++ windowSlice (fun _ => 0) 0 5) ∧
    (([9] : List Nat) ++ windowSlice (fun _ => 0) 0 5).length = 1 + 5 :=
  c6_sentinel_flush 0 1 0 0 [] (fun _ => 0) 5 [9] (by decide) (by decide) (by decide)

/-- C9: whenever the chunk decoder itself succeeds, `decompress` succeeds
and emits the full decoded output; a mismatch between the actual output
length and the chunk's declared decompressed size only sets the non-fatal
warning flag and never turns the result into an error or truncates the
output — for the LZ77 path and for the external-inflate (zlib) path alike. -/
theorem c9_size_mismatch_nonfatal (inflate : List Nat → Option (List Nat))
    (c : HapiCompressedChunk) (out : List Nat) :
    (c.compression = .lz77 → decode_lz77 (chunkStream c) = .ok out →
      decompress inflate c = .ok out (decide (out.length ≠ c.decompressed_size))) ∧
    (c.compression = .zlib → inflate (chunkStream c) = some out →
      decompress inflate c = .ok out (decide (out.length ≠ c.decompressed_size))) := by
  constructor <;> intro h1 h2 <;> simp [decompress, h1, h2]

/-- Witness for C9: an LZ77 chunk whose declared decompressed size 5 differs
from the actual 2-byte output still decompresses successfully with the
warning flag set and the full output emitted. -/
theorem c9_size_mismatch_nonfatal_witness :
    decompress (fun _ => none) ⟨.lz77, false, 5, 5, 19, [3, 16, 0, 0, 0]⟩ =
      .ok [0, 0] true :=
  (c9_size_mismatch_nonfatal (fun _ => none) ⟨.lz77, false, 5, 5, 19, [3, 16, 0, 0, 0]⟩
    [0, 0]).1 (by decide) (by decide)

/-! ## Claim theorems: zero-initialized window (C10) -/

theorem setF_self (w : Nat → Nat) (i : Nat) : setF w i (w i) = w := by
  funext j
  unfold setF
  by_cases h : j = i <;> simp [h]

theorem naivePush_zero_fold (buf : List Nat) (w : Nat → Nat) (k : Nat)
    (hk : k ≤ HAPI_LZ77_WINDOW_SIZE) :
    (List.range k).foldl (naivePushStep 0 0) (buf, w) = (buf, w) := by
  induction k with
  | zero => rfl
  | succ j ih =>
    rw [List.range_succ, List.foldl_append, ih (by omega)]
    show naivePushStep 0 0 (buf, w) j = (buf, w)
    unfold naivePushStep
    simp only [Nat.zero_add, setF_self]
    rw [if_neg (show ¬(j = HAPI_LZ77_WINDOW_SIZE) by
      simp only [HAPI_LZ77_WINDOW_SIZE] at hk ⊢; omega)]

theorem copyWithin_zero (s e d : Nat) (hse : s ≤ e) (he : e ≤ HAPI_LZ77_WINDOW_SIZE + 1)
    (hd : d + (e - s) ≤ HAPI_LZ77_WINDOW_SIZE + 1) :
    copyWithin (fun _ => 0) s e d = some (fun _ => 0) := by
  unfold copyWithin
  rw [if_pos ⟨hse, he, hd⟩]
  congr 1
  funext i
  by_cases h : d ≤ i ∧ i < d + (e - s) <;> simp [h]

theorem decodeBits_backref_on_zero (tag remaining lo hi : Nat) (rest : List Nat)
    (hlo : lo < 256) (hhi : hi < 256)
    (hbit : tag &&& (1 <<< (8 - (remaining + 1))) ≠ 0)
    (hp : (hi <<< 8 ||| lo) >>> 4 ≠ 0) :
    decodeBits tag (remaining + 1) (lo :: hi :: rest) (fun _ => 0) 0 [] =
      decodeBits tag remaining rest (fun _ => 0) ((lo &&& 0x0f) + 2) [] := by
  have hc15 : lo &&& 15 ≤ 15 := Nat.and_le_right
  have hoff : (hi <<< 8 ||| lo) >>> 4 ≤ 4095 := by
    have h1 : hi <<< 8 ||| lo < 65536 := by
      have h2 : hi <<< 8 < 2 ^ 16 := by
        rw [Nat.shiftLeft_eq]
        calc hi * 2 ^ 8 < 256 * 2 ^ 8 := by omega
        _ ≤ 2 ^ 16 := by norm_num
      have h3 : lo < 2 ^ 16 := by omega
      have := Nat.or_lt_two_pow h2 h3
      simpa using this
    have h4 : (hi <<< 8 ||| lo) >>> 4 = (hi <<< 8 ||| lo) / 16 := by
      rw [Nat.shiftRight_eq_div_pow]
    omega
  have hflush : ¬(HAPI_LZ77_WINDOW_SIZE + 1 - 0 = 0) := by
    norm_num [HAPI_LZ77_WINDOW_SIZE]
  simp only [decodeBits, if_neg hflush, if_neg hbit, if_pos hp]
  rcases Nat.eq_zero_or_pos ((hi <<< 8 ||| lo) >>> 4 - 1) with hoff0 | hoffpos
  · rw [hoff0]
    rw [if_pos ⟨Nat.le_refl 0, by omega⟩]
    have hnaive : lz77_pointer_naive_push [] (fun _ => (0 : Nat)) 0 0 ((lo &&& 15) + 2) =
        ([], fun _ => (0 : Nat), (lo &&& 15) + 2) := by
      simp only [lz77_pointer_naive_push]
      rw [naivePush_zero_fold [] (fun _ => 0) ((lo &&& 15) + 2)
        (by simp only [HAPI_LZ77_WINDOW_SIZE]; omega)]
      rw [if_neg (show ¬(0 + ((lo &&& 15) + 2) > HAPI_LZ77_WINDOW_SIZE) by
        simp only [HAPI_LZ77_WINDOW_SIZE]; omega)]
      simp
    rw [hnaive]
  · rw [if_neg (show ¬((hi <<< 8 ||| lo) >>> 4 - 1 ≤ 0 ∧
        0 < (hi <<< 8 ||| lo) >>> 4 - 1 + ((lo &&& 15) + 2)) from fun h => by omega)]
    by_cases hb2 : (hi <<< 8 ||| lo) >>> 4 - 1 + ((lo &&& 15) + 2) > HAPI_LZ77_WINDOW_SIZE
    · rw [if_pos hb2]
      have ha : ((hi <<< 8 ||| lo) >>> 4 - 1 + ((lo &&& 15) + 2)) &&& HAPI_LZ77_WINDOW_SIZE ≤
          4095 := by
        have := Nat.and_le_right (n := (hi <<< 8 ||| lo) >>> 4 - 1 + ((lo &&& 15) + 2))
          (m := HAPI_LZ77_WINDOW_SIZE)
        simpa [HAPI_LZ77_WINDOW_SIZE] using this
      have h1 := copyWithin_zero ((hi <<< 8 ||| lo) >>> 4 - 1) (HAPI_LZ77_WINDOW_SIZE + 1) 0
        (by simp only [HAPI_LZ77_WINDOW_SIZE]; omega) (Nat.le_refl _)
        (by simp only [HAPI_LZ77_WINDOW_SIZE]; omega)
      simp only [h1]
      have h2 := copyWithin_zero 0
        (((hi <<< 8 ||| lo) >>> 4 - 1 + ((lo &&& 15) + 2)) &&& HAPI_LZ77_WINDOW_SIZE)
        (0 + ((lo &&& 15) + 2 -
          (((hi <<< 8 ||| lo) >>> 4 - 1 + ((lo &&& 15) + 2)) &&& HAPI_LZ77_WINDOW_SIZE)))
        (Nat.zero_le _)
        (by simp only [HAPI_LZ77_WINDOW_SIZE] at ha ⊢; omega)
        (by simp only [HAPI_LZ77_WINDOW_SIZE] at ha ⊢; omega)
      simp only [h2]
      rw [show (0 + ((lo &&& 15) + 2)) ⊓ (HAPI_LZ77_WINDOW_SIZE + 1) = (lo &&& 15) + 2 by
        simp only [HAPI_LZ77_WINDOW_SIZE]; omega]
    · rw [if_neg hb2]
      rw [if_neg (show ¬((lo &&& 15) + 2 > HAPI_LZ77_WINDOW_SIZE + 1 - 0) by
        simp only [HAPI_LZ77_WINDOW_SIZE]; omega)]
      have h1 := copyWithin_zero ((hi <<< 8 ||| lo) >>> 4 - 1)
        ((hi <<< 8 ||| lo) >>> 4 - 1 + ((lo &&& 15) + 2)) 0 (by omega)
        (by simp only [HAPI_LZ77_WINDOW_SIZE] at hb2 ⊢; omega)
        (by simp only [HAPI_LZ77_WINDOW_SIZE] at hb2 ⊢; omega)
      simp only [h1]
      rw [Nat.zero_add]

theorem windowSlice_zero (start len : Nat) :
    windowSlice (fun _ => 0) start len = List.replicate len 0 := by
  simp [windowSlice]

/-- C10: the LZ77 window is zero-initialized
(`resize_with(4096, Default::default)`), so a first-operation
back-reference into window positions never written during the current pass
deterministically reproduces zero bytes instead of raising an error: for
every nonzero pointer, decoding a chunk consisting of that back-reference
followed by the sentinel yields `count` zero bytes; and every decode starts
from the all-zero window (second conjunct). -/
theorem c10_unwritten_window_zero (lo hi : Nat) (hlo : lo < 256) (hhi : hi < 256)
    (hp : (hi <<< 8 ||| lo) >>> 4 ≠ 0) :
    decode_lz77 [3, lo, hi, 0, 0] = .ok (List.replicate ((lo &&& 0x0f) + 2) 0) ∧
    (∀ s : List Nat, decode_lz77 s =
      decodeLz77Go ((s.map (fun b => b % 256)).length + 1) (s.map (fun b => b % 256))
        (fun _ => 0) 0 []) := by
  constructor
  · have hmap : [3, lo, hi, 0, 0].map (fun b => b % 256) = [3, lo, hi, 0, 0] := by
      simp [Nat.mod_eq_of_lt hlo, Nat.mod_eq_of_lt hhi]
    show decodeLz77Go (([3, lo, hi, 0, 0].map (fun b => b % 256)).length + 1)
      ([3, lo, hi, 0, 0].map (fun b => b % 256)) (fun _ => 0) 0 [] = _
    rw [hmap]
    show (match decodeBits 3 8 [lo, hi, 0, 0] (fun _ => 0) 0 [] with
      | .done out => Lz77Result.ok out
      | .err e => Lz77Result.err e
      | .cont s w n b => decodeLz77Go 5 s w n b) = _
    rw [decodeBits_backref_on_zero 3 7 lo hi [0, 0] hlo hhi (by decide) hp]
    rw [decodeBits_sentinel 3 6 0 0 [] (fun _ => 0) ((lo &&& 0x0f) + 2) []
      (by have h15 : lo &&& 15 ≤ 15 := Nat.and_le_right
          simp only [HAPI_LZ77_WINDOW_SIZE]
          omega)
      (by decide) (by decide)]
    show Lz77Result.ok ([] ++ windowSlice (fun _ => 0) 0 ((lo &&& 0x0f) + 2)) = _
    rw [List.nil_append, windowSlice_zero]
  · intro s
    rfl

/-- Witness for C10 at pointer 4095 (offset 4094, count 17), a source range
entirely in never-written window territory that also wraps. -/
theorem c10_unwritten_window_zero_witness :
    decode_lz77 [3, 255, 255, 0, 0] = .ok (List.replicate 17 0) :=
  (c10_unwritten_window_zero 255 255 (by decide) (by decide) (by decide)).1

end Hapi
